import Mathlib

/-!
Shallow embedding of the multi-view semantic label fusion core of the
3d-semantic-reconstruction repository (`src/scripts/3_fuse_semantics.py`,
function `fuse_semantics`).

Modelling conventions:
* All projection arithmetic is over `ℚ` (the source uses floating point;
  every claim under study is about exact sign/threshold comparisons, for
  which exact rational arithmetic is the faithful idealization).
* File-system effects are folded into explicit input data:
  - `ColmapModel` describes the three observable states of the COLMAP
    model directory (missing/empty directory, `pycolmap.Reconstruction`
    raising, successful load).
  - each image's mask file lookup (`masks_path / f"{stem}_mask.png"`) is
    folded into a per-image `MaskFile` field: the file may be missing
    (`mask_file.exists()` is false, the loop `continue`s), may raise on
    decode (`Image.open` has no surrounding try/except, so the exception
    escapes `fuse_semantics`), or decodes to a label grid.
* The camera referenced by an image (`cameras[image.camera_id]`) is inlined
  into `ImageData`: its calibration matrix `K`, `width` and `height`.
* `fuse_semantics` returns `none` exactly when the python function
  terminates without writing the output file (early `return` or an escaped
  exception), and `some out` with the content handed to the exporter
  otherwise.  The third positional argument `dense_ply_path` is kept (the
  source declares but never reads it); the viridis colormap is an external
  library and enters as the `palette` argument.
-/

set_option maxHeartbeats 1000000

unseal Rat.add Rat.mul Rat.inv Rat.sub

namespace SemanticFusion

/-- A 3D point (one row of `points_3d`). -/
structure Vec3 where
  x : ℚ
  y : ℚ
  z : ℚ
deriving DecidableEq

/-- A 3×3 matrix, as produced by `cam.calibration_matrix()`. -/
structure Mat33 where
  a00 : ℚ
  a01 : ℚ
  a02 : ℚ
  a10 : ℚ
  a11 : ℚ
  a12 : ℚ
  a20 : ℚ
  a21 : ℚ
  a22 : ℚ

/-- A 3×4 matrix, as produced by `image.cam_from_world().matrix()[:3, :]`
and by the product `K @ Rt`. -/
structure Mat34 where
  b00 : ℚ
  b01 : ℚ
  b02 : ℚ
  b03 : ℚ
  b10 : ℚ
  b11 : ℚ
  b12 : ℚ
  b13 : ℚ
  b20 : ℚ
  b21 : ℚ
  b22 : ℚ
  b23 : ℚ

/-- `proj_matrix = K @ Rt` (matrix product of the 3×3 intrinsics with the
3×4 world-to-camera extrinsics). -/
def proj_matrix (K : Mat33) (Rt : Mat34) : Mat34 where
  b00 := K.a00 * Rt.b00 + K.a01 * Rt.b10 + K.a02 * Rt.b20
  b01 := K.a00 * Rt.b01 + K.a01 * Rt.b11 + K.a02 * Rt.b21
  b02 := K.a00 * Rt.b02 + K.a01 * Rt.b12 + K.a02 * Rt.b22
  b03 := K.a00 * Rt.b03 + K.a01 * Rt.b13 + K.a02 * Rt.b23
  b10 := K.a10 * Rt.b00 + K.a11 * Rt.b10 + K.a12 * Rt.b20
  b11 := K.a10 * Rt.b01 + K.a11 * Rt.b11 + K.a12 * Rt.b21
  b12 := K.a10 * Rt.b02 + K.a11 * Rt.b12 + K.a12 * Rt.b22
  b13 := K.a10 * Rt.b03 + K.a11 * Rt.b13 + K.a12 * Rt.b23
  b20 := K.a20 * Rt.b00 + K.a21 * Rt.b10 + K.a22 * Rt.b20
  b21 := K.a20 * Rt.b01 + K.a21 * Rt.b11 + K.a22 * Rt.b21
  b22 := K.a20 * Rt.b02 + K.a21 * Rt.b12 + K.a22 * Rt.b22
  b23 := K.a20 * Rt.b03 + K.a21 * Rt.b13 + K.a22 * Rt.b23

/-- `P @ [x, y, z, 1]`: the homogeneous image coordinates `(u, v, w)` of a
3D point (source: `points_2d_homo = (proj_matrix @ points_3d_homo.T).T`). -/
def applyProj (P : Mat34) (p : Vec3) : ℚ × ℚ × ℚ :=
  (P.b00 * p.x + P.b01 * p.y + P.b02 * p.z + P.b03,
   P.b10 * p.x + P.b11 * p.y + P.b12 * p.z + P.b13,
   P.b20 * p.x + P.b21 * p.y + P.b22 * p.z + P.b23)

/-- The observable state of one image's mask file on disk. -/
inductive MaskFile where
  | missing : MaskFile
  | undecodable : MaskFile
  | decoded : (ℕ → ℕ → ℕ) → MaskFile

/-- One COLMAP image together with its referenced camera
(`cam = cameras[image.camera_id]`) and its mask file state. -/
structure ImageData where
  K : Mat33
  cam_from_world : Mat34
  width : ℕ
  height : ℕ
  mask : MaskFile

/-- Homogeneous projection `(u, v, w)` of point `p` in image `img`. -/
def homogCoords (img : ImageData) (p : Vec3) : ℚ × ℚ × ℚ :=
  applyProj (proj_matrix img.K img.cam_from_world) p

/-- Camera-space depth: the third homogeneous coordinate `w`
(source: `points_2d_homo[:, 2]`). -/
def depthOf (img : ImageData) (p : Vec3) : ℚ :=
  (homogCoords img p).2.2

/-- De-homogenized pixel coordinate `(u / w, v / w)`
(source: `points_2d = .../ points_2d_homo[visible_mask, 2, np.newaxis]`). -/
def pixelOf (img : ImageData) (p : Vec3) : ℚ × ℚ :=
  ((homogCoords img p).1 / (homogCoords img p).2.2,
   (homogCoords img p).2.1 / (homogCoords img p).2.2)

/-- The bounds test on the real-valued pixel coordinate (source:
`(points_2d[:, 0] >= 0) & (points_2d[:, 0] < w) & (points_2d[:, 1] >= 0) &
(points_2d[:, 1] < h)` with `h, w = cam.height, cam.width`). -/
abbrev inBounds (img : ImageData) (p : Vec3) : Prop :=
  0 ≤ (pixelOf img p).1 ∧ (pixelOf img p).1 < (img.width : ℚ) ∧
  0 ≤ (pixelOf img p).2 ∧ (pixelOf img p).2 < (img.height : ℚ)

/-- Truncation toward zero of a rational, the semantics of numpy
`.astype(int)` on a float. -/
def truncToInt (q : ℚ) : ℤ :=
  if 0 ≤ q.num then Int.ofNat (q.num.toNat / q.den)
  else - Int.ofNat ((- q.num).toNat / q.den)

/-- The mask lookup `label = mask[y, x]` performed on the truncated pixel
coordinate of point `p` (source: `valid_2d_coords = ....astype(int)` then
`mask[y, x]`). -/
def maskLookup (m : ℕ → ℕ → ℕ) (img : ImageData) (p : Vec3) : ℕ :=
  m (truncToInt (pixelOf img p).2).toNat (truncToInt (pixelOf img p).1).toNat

/-- The vote that image `img` (whose mask decoded to `m`) casts for point
`p`: the depth test (`points_2d_homo[:, 2] > 0`), then the bounds test,
then the background filter (`if label > 0`). -/
def pointVoteDecoded (img : ImageData) (m : ℕ → ℕ → ℕ) (p : Vec3) : Option ℕ :=
  if 0 < depthOf img p then
    if inBounds img p then
      if 0 < maskLookup m img p then some (maskLookup m img p) else none
    else none
  else none

/-- The vote that image `img` casts for point `p`; an image whose mask file
is absent casts no vote (the loop does `continue`). -/
def pointVote (img : ImageData) (p : Vec3) : Option ℕ :=
  match img.mask with
  | .decoded m => pointVoteDecoded img m p
  | _ => none

/-- The final content of `point_labels[i]` for the point `p`: the votes of
the images that observe it, in image-processing order. -/
def voteList (imgs : List ImageData) (p : Vec3) : List ℕ :=
  imgs.filterMap fun img => pointVote img p

/-- The distinct values of a list in first-occurrence order: the key order
of the insertion-ordered dict underlying python's `Counter(votes)`. -/
def firstOccs : List ℕ → List ℕ
  | [] => []
  | v :: vs => v :: (firstOccs vs).filter fun u => u ≠ v

/-- One comparison step of python's `max(..., key=count)`: the incumbent is
replaced only when the challenger's count is strictly larger. -/
def betterOf (votes : List ℕ) (best l : ℕ) : ℕ :=
  if votes.count best < votes.count l then l else best

/-- `max` over a key list with the count key: returns the first element of
`b :: ls` attaining the maximal count in `votes`. -/
def pickMax (votes : List ℕ) (b : ℕ) (ls : List ℕ) : ℕ :=
  ls.foldl (betterOf votes) b

/-- `Counter(votes).most_common(1)`: `heapq.nlargest(1, items, key)` is
`max` over the counter's items in key-insertion order, so the result is the
first-inserted label among those of maximal count (`none` on an empty
list). -/
def most_common1 (votes : List ℕ) : Option ℕ :=
  match firstOccs votes with
  | [] => none
  | l :: ls => some (pickMax votes l ls)

/-- The resolver for one point (source: `final_labels[i]` stays `0` when
`point_labels[i]` is empty, else `Counter(...).most_common(1)[0][0]`). -/
def resolveLabel (votes : List ℕ) : ℕ :=
  (most_common1 votes).getD 0

/-- One iteration of the image loop acting on the whole `point_labels`
table: `continue` on a missing mask, an escaped exception on an
undecodable one, otherwise append each valid point's looked-up label. -/
def accumImage (img : ImageData) (pts : List Vec3) (point_labels : List (List ℕ)) :
    Except Unit (List (List ℕ)) :=
  match img.mask with
  | .missing => .ok point_labels
  | .undecodable => .error ()
  | .decoded m =>
      .ok ((pts.zip point_labels).map fun pv => pv.2 ++ (pointVoteDecoded img m pv.1).toList)

/-- The image loop (`for image_id, image in images.items()`), threading the
`point_labels` table and propagating an escaped decode exception. -/
def accumImages (imgs : List ImageData) (pts : List Vec3) (point_labels : List (List ℕ)) :
    Except Unit (List (List ℕ)) :=
  match imgs with
  | [] => .ok point_labels
  | img :: rest =>
      match accumImage img pts point_labels with
      | .error e => .error e
      | .ok acc => accumImages rest pts acc

/-- Step 6 of the source: gray `0.5` everywhere when `max_label == 0`, else
one palette sample per label (the viridis colormap itself is the external
`palette` argument, sampled as `colormap(final_labels / max_label)`). -/
def colorize (palette : ℕ → ℕ → ℚ × ℚ × ℚ) (final_labels : List ℕ) :
    List (ℚ × ℚ × ℚ) :=
  let max_label := final_labels.foldr max 0
  if max_label = 0 then final_labels.map fun _ => (1/2, 1/2, 1/2)
  else final_labels.map fun l => palette max_label l

/-- The observable state of the COLMAP model directory. -/
inductive ColmapModel where
  | missingOrEmpty : ColmapModel
  | loadFailure : ColmapModel
  | loaded : List ImageData → List Vec3 → ColmapModel

/-- What `fuse_semantics` hands to `o3d.io.write_point_cloud`: the point
coordinates, the per-point consensus labels, and the per-point colors. -/
structure FusionOutput where
  points : List Vec3
  labels : List ℕ
  colors : List (ℚ × ℚ × ℚ)
deriving DecidableEq

/-- The whole of `fuse_semantics(colmap_path, masks_path, dense_ply_path,
output_ply_path)`: `none` iff the run ends without writing the output file
(the three early `return`s, or an exception escaping the image loop). -/
def fuse_semantics (palette : ℕ → ℕ → ℚ × ℚ × ℚ) (colmap_model : ColmapModel)
    (dense_ply_path : ℕ) : Option FusionOutput :=
  match colmap_model with
  | .missingOrEmpty => none
  | .loadFailure => none
  | .loaded images points_3d =>
      if points_3d.isEmpty then none
      else
        match accumImages images points_3d (points_3d.map fun _ => []) with
        | .error _ => none
        | .ok point_labels =>
            let final_labels := point_labels.map resolveLabel
            some ⟨points_3d, final_labels, colorize palette final_labels⟩

/-! Concrete instances used by counterexamples and witnesses: an
identity-like camera of width and height 4, the point `(0, 0, 1)` which
projects to pixel `(0, 0)` at depth `1`, and the point `(0, 0, -1)` which
projects to pixel `(0, 0)` at depth `-1`. -/

def idK : Mat33 := ⟨1, 0, 0, 0, 1, 0, 0, 0, 1⟩

def idRt : Mat34 := ⟨1, 0, 0, 0, 0, 1, 0, 0, 0, 0, 1, 0⟩

def constMask (lab : ℕ) : ℕ → ℕ → ℕ := fun _ _ => lab

def mkImg (lab : ℕ) : ImageData := ⟨idK, idRt, 4, 4, .decoded (constMask lab)⟩

def missingImg : ImageData := ⟨idK, idRt, 4, 4, .missing⟩

def badImg : ImageData := ⟨idK, idRt, 4, 4, .undecodable⟩

def p0 : Vec3 := ⟨0, 0, 1⟩

def pBehind : Vec3 := ⟨0, 0, -1⟩

def imgs5533 : List ImageData := [mkImg 5, mkImg 5, mkImg 3, mkImg 3]

def c2imgs : List ImageData := [mkImg 5, mkImg 3, mkImg 5]

def pal0 : ℕ → ℕ → ℚ × ℚ × ℚ := fun _ _ => (0, 0, 0)

/-! Helper lemmas about the resolver (`Counter.most_common(1)` model). -/

lemma voteList_cons (img : ImageData) (imgs : List ImageData) (p : Vec3) :
    voteList (img :: imgs) p = (pointVote img p).toList ++ voteList imgs p := by
  cases h : pointVote img p <;> simp [voteList, List.filterMap_cons, h]

lemma betterOf_eq_or (votes : List ℕ) (b l : ℕ) :
    betterOf votes b l = b ∨ betterOf votes b l = l := by
  unfold betterOf; split <;> simp

lemma betterOf_count_left (votes : List ℕ) (b l : ℕ) :
    votes.count b ≤ votes.count (betterOf votes b l) := by
  unfold betterOf; split <;> omega

lemma betterOf_count_right (votes : List ℕ) (b l : ℕ) :
    votes.count l ≤ votes.count (betterOf votes b l) := by
  unfold betterOf; split <;> omega

lemma pickMax_mem (votes : List ℕ) (ls : List ℕ) (b : ℕ) :
    pickMax votes b ls ∈ b :: ls := by
  induction ls generalizing b with
  | nil => simp [pickMax]
  | cons l ls ih =>
    simp only [pickMax, List.foldl_cons] at ih ⊢
    have h := ih (betterOf votes b l)
    rcases List.mem_cons.1 h with h1 | h1
    · rw [h1]
      rcases betterOf_eq_or votes b l with h2 | h2 <;> simp [h2]
    · simp [List.mem_cons, h1]

lemma pickMax_count_ge_start (votes : List ℕ) (ls : List ℕ) (b : ℕ) :
    votes.count b ≤ votes.count (pickMax votes b ls) := by
  induction ls generalizing b with
  | nil => simp [pickMax]
  | cons l ls ih =>
    simp only [pickMax, List.foldl_cons] at ih ⊢
    exact le_trans (betterOf_count_left votes b l) (ih (betterOf votes b l))

lemma pickMax_count_ge_mem (votes : List ℕ) (ls : List ℕ) (b m : ℕ) (hm : m ∈ ls) :
    votes.count m ≤ votes.count (pickMax votes b ls) := by
  induction ls generalizing b with
  | nil => simp at hm
  | cons l ls ih =>
    simp only [pickMax, List.foldl_cons] at ih ⊢
    rcases List.mem_cons.1 hm with h1 | h1
    · subst h1
      exact le_trans (betterOf_count_right votes b m)
        (pickMax_count_ge_start votes ls (betterOf votes b m))
    · exact ih (betterOf votes b l) h1

lemma pickMax_of_le (votes : List ℕ) (ls : List ℕ) (b : ℕ)
    (h : ∀ l ∈ ls, votes.count l ≤ votes.count b) : pickMax votes b ls = b := by
  induction ls with
  | nil => simp [pickMax]
  | cons l ls ih =>
    simp only [pickMax, List.foldl_cons] at ih ⊢
    have hb : betterOf votes b l = b := by
      unfold betterOf
      rw [if_neg]
      have := h l (List.mem_cons_self l ls)
      omega
    rw [hb]
    exact ih fun x hx => h x (List.mem_cons_of_mem l hx)

lemma mem_firstOccs {votes : List ℕ} {a : ℕ} : a ∈ firstOccs votes ↔ a ∈ votes := by
  induction votes with
  | nil => simp [firstOccs]
  | cons v vs ih =>
    simp only [firstOccs, List.mem_cons, List.mem_filter, decide_eq_true_eq, ih]
    by_cases h : a = v <;> simp [h]

lemma firstOccs_nodup (votes : List ℕ) : (firstOccs votes).Nodup := by
  induction votes with
  | nil => simp [firstOccs]
  | cons v vs ih =>
    simp only [firstOccs, List.nodup_cons]
    refine ⟨?_, ih.filter _⟩
    intro h
    have := (List.mem_filter.1 h).2
    simp at this

lemma most_common1_cons (v : ℕ) (vs : List ℕ) :
    most_common1 (v :: vs) =
      some (pickMax (v :: vs) v ((firstOccs vs).filter fun u => u ≠ v)) := rfl

lemma most_common1_spec {votes : List ℕ} {l : ℕ} (h : most_common1 votes = some l) :
    l ∈ votes ∧ ∀ m ∈ votes, votes.count m ≤ votes.count l := by
  cases votes with
  | nil => simp [most_common1, firstOccs] at h
  | cons v vs =>
    rw [most_common1_cons, Option.some_inj] at h
    have hshape : firstOccs (v :: vs) = v :: (firstOccs vs).filter fun u => u ≠ v := rfl
    have hmem : l ∈ firstOccs (v :: vs) := by
      rw [hshape, ← h]
      exact pickMax_mem _ _ _
    refine ⟨mem_firstOccs.1 hmem, fun m hm => ?_⟩
    have hm2 : m ∈ firstOccs (v :: vs) := mem_firstOccs.2 hm
    rw [hshape] at hm2
    rcases List.mem_cons.1 hm2 with h1 | h1
    · subst h1
      rw [← h]
      exact pickMax_count_ge_start _ _ _
    · rw [← h]
      exact pickMax_count_ge_mem _ _ _ _ h1

lemma resolveLabel_nil : resolveLabel [] = 0 := rfl

lemma resolveLabel_cons_eq (v : ℕ) (vs : List ℕ) :
    most_common1 (v :: vs) = some (resolveLabel (v :: vs)) := by
  rw [most_common1_cons]; rfl

lemma resolveLabel_spec {votes : List ℕ} (h : votes ≠ []) :
    resolveLabel votes ∈ votes ∧
      ∀ m ∈ votes, votes.count m ≤ votes.count (resolveLabel votes) := by
  cases votes with
  | nil => exact absurd rfl h
  | cons v vs => exact most_common1_spec (resolveLabel_cons_eq v vs)

lemma resolveLabel_eq_of_strict_max {votes : List ℕ} {l : ℕ} (hl : l ∈ votes)
    (h : ∀ m ∈ votes, m ≠ l → votes.count m < votes.count l) : resolveLabel votes = l := by
  have hne : votes ≠ [] := List.ne_nil_of_mem hl
  obtain ⟨hmem, hmax⟩ := resolveLabel_spec hne
  by_contra hne2
  have h1 := h _ hmem hne2
  have h2 := hmax l hl
  omega

/-! Tie-break order: `most_common1` returns, among the labels of maximal
count, the one whose FIRST OCCURRENCE in the vote list is earliest (python:
`max` over the insertion-ordered counter items keeps the incumbent on
ties). -/

lemma pickMax_append (votes : List ℕ) (ls₁ ls₂ : List ℕ) (b : ℕ) :
    pickMax votes b (ls₁ ++ ls₂) = pickMax votes (pickMax votes b ls₁) ls₂ := by
  simp [pickMax, List.foldl_append]

lemma pickMax_front_of_max (votes : List ℕ) (b m : ℕ) (ls₁ ls₂ : List ℕ)
    (hmax : ∀ l ∈ b :: (ls₁ ++ m :: ls₂), votes.count l ≤ votes.count m) :
    pickMax votes b (ls₁ ++ m :: ls₂) ∈ b :: (ls₁ ++ [m]) := by
  have e : ls₁ ++ m :: ls₂ = (ls₁ ++ [m]) ++ ls₂ := by simp
  rw [e, pickMax_append]
  have hm' : votes.count m ≤ votes.count (pickMax votes b (ls₁ ++ [m])) :=
    pickMax_count_ge_mem votes (ls₁ ++ [m]) b m (by simp)
  have hle : ∀ l ∈ ls₂, votes.count l ≤ votes.count (pickMax votes b (ls₁ ++ [m])) := by
    intro l hl
    exact le_trans (hmax l (by simp [hl])) hm'
  rw [pickMax_of_le votes ls₂ _ hle]
  exact pickMax_mem votes (ls₁ ++ [m]) b

lemma indexOf_le_of_mem_front (m r : ℕ) (P : List ℕ) :
    ∀ T, m ∉ P → r ∈ P ++ [m] → (P ++ m :: T).indexOf r ≤ (P ++ m :: T).indexOf m := by
  induction P with
  | nil =>
    intro T _ hr
    simp only [List.nil_append] at hr ⊢
    simp only [List.mem_singleton] at hr
    subst hr
    exact le_refl _
  | cons c P ih =>
    intro T hm hr
    have hmc : m ≠ c := fun h => hm (h ▸ List.mem_cons_self c P)
    have hmP : m ∉ P := fun h => hm (List.mem_cons_of_mem c h)
    by_cases hrc : r = c
    · subst hrc
      simp only [List.cons_append, List.indexOf_cons_self]
      exact Nat.zero_le _
    · have hr' : r ∈ P ++ [m] := by
        simp only [List.cons_append, List.mem_cons] at hr
        tauto
      have h2 := ih T hmP hr'
      simp only [List.cons_append, List.indexOf_cons_ne _ (Ne.symm hrc),
        List.indexOf_cons_ne _ (Ne.symm hmc)]
      omega

lemma firstOccs_pairwise (votes : List ℕ) :
    (firstOccs votes).Pairwise fun a b => votes.indexOf a < votes.indexOf b := by
  induction votes with
  | nil => simp [firstOccs]
  | cons v vs ih =>
    simp only [firstOccs, List.pairwise_cons]
    constructor
    · intro b hb
      have hbv : b ≠ v := by
        have := (List.mem_filter.1 hb).2
        simpa using this
      rw [List.indexOf_cons_self, List.indexOf_cons_ne _ (Ne.symm hbv)]
      exact Nat.succ_pos _
    · have h1 : ((firstOccs vs).filter fun u => u ≠ v).Pairwise
          (fun a b => vs.indexOf a < vs.indexOf b) := ih.filter _
      refine h1.imp_of_mem ?_
      intro a b ha hb hab
      have hav : a ≠ v := by
        have := (List.mem_filter.1 ha).2
        simpa using this
      have hbv : b ≠ v := by
        have := (List.mem_filter.1 hb).2
        simpa using this
      rw [List.indexOf_cons_ne _ (Ne.symm hav), List.indexOf_cons_ne _ (Ne.symm hbv)]
      omega

lemma pairwise_indexOf_mono {L : List ℕ} {f : ℕ → ℕ}
    (hp : L.Pairwise fun a b => f a < f b) {a b : ℕ} (ha : a ∈ L) (hb : b ∈ L)
    (hidx : L.indexOf a ≤ L.indexOf b) : f a ≤ f b := by
  induction L with
  | nil => simp at ha
  | cons c L ih =>
    rw [List.pairwise_cons] at hp
    by_cases hac : a = c
    · subst hac
      rcases List.mem_cons.1 hb with h1 | h1
      · subst h1
        exact le_refl _
      · exact le_of_lt (hp.1 b h1)
    · have hbc : b ≠ c := by
        intro h
        subst h
        rw [List.indexOf_cons_self, List.indexOf_cons_ne _ (Ne.symm hac)] at hidx
        omega
      have ha' : a ∈ L := (List.mem_cons.1 ha).resolve_left hac
      have hb' : b ∈ L := (List.mem_cons.1 hb).resolve_left hbc
      have hidx' : L.indexOf a ≤ L.indexOf b := by
        rw [List.indexOf_cons_ne _ (Ne.symm hac), List.indexOf_cons_ne _ (Ne.symm hbc)] at hidx
        omega
      exact ih hp.2 ha' hb' hidx'

lemma most_common1_earliest {votes : List ℕ} {r m : ℕ}
    (h : most_common1 votes = some r) (hm : m ∈ votes)
    (hc : votes.count m = votes.count r) : votes.indexOf r ≤ votes.indexOf m := by
  obtain ⟨hrmem, hrmax⟩ := most_common1_spec h
  cases votes with
  | nil => simp at hm
  | cons v vs =>
    rw [most_common1_cons, Option.some_inj] at h
    have hshape : firstOccs (v :: vs) = v :: (firstOccs vs).filter fun u => u ≠ v := rfl
    have hmF : m ∈ firstOccs (v :: vs) := mem_firstOccs.2 hm
    have hrF : r ∈ firstOccs (v :: vs) := by
      rw [hshape, ← h]
      exact pickMax_mem _ _ _
    have hnd := firstOccs_nodup (v :: vs)
    obtain ⟨P, T, hsplit⟩ := List.append_of_mem hmF
    have hmaxm : ∀ l ∈ firstOccs (v :: vs), (v :: vs).count l ≤ (v :: vs).count m := by
      intro l hl
      rw [hc]
      exact hrmax l (mem_firstOccs.1 hl)
    cases P with
    | nil =>
      simp only [List.nil_append] at hsplit
      have hvm : v = m := (List.cons.injEq _ _ _ _ ▸ hsplit).1
      have hTail : (firstOccs vs).filter (fun u => u ≠ v) = T :=
        (List.cons.injEq _ _ _ _ ▸ hsplit).2
      have hrv : r = v := by
        rw [← h]
        refine pickMax_of_le _ _ _ ?_
        intro l hl
        have h1 := hmaxm l (by rw [hshape]; exact List.mem_cons_of_mem v hl)
        rw [← hvm] at h1
        exact h1
      rw [hrv, hvm]
    | cons c P' =>
      have hvc : v = c := by
        rw [hshape] at hsplit
        exact (List.cons.injEq _ _ _ _ ▸ hsplit).1
      have hTail : (firstOccs vs).filter (fun u => u ≠ v) = P' ++ m :: T := by
        rw [hshape] at hsplit
        exact (List.cons.injEq _ _ _ _ ▸ hsplit).2
      have hrfront : r ∈ v :: (P' ++ [m]) := by
        rw [← h, hTail]
        refine pickMax_front_of_max _ _ _ _ _ ?_
        intro l hl
        refine hmaxm l ?_
        rw [hshape, hTail]
        exact hl
      have hLeq : firstOccs (v :: vs) = (v :: P') ++ m :: T := by
        rw [hshape, hTail, List.cons_append]
      have hmNotFront : m ∉ v :: P' := by
        intro hmem
        have hd := List.disjoint_of_nodup_append (hLeq ▸ hnd)
        exact hd hmem (List.mem_cons_self m T)
      have hidxF : (firstOccs (v :: vs)).indexOf r ≤ (firstOccs (v :: vs)).indexOf m := by
        rw [hLeq]
        refine indexOf_le_of_mem_front m r (v :: P') T hmNotFront ?_
        simpa using hrfront
      exact pairwise_indexOf_mono (firstOccs_pairwise (v :: vs)) hrF hmF hidxF

/-! Helper lemmas about the per-image vote and about the image loop. -/

lemma pointVote_missing {img : ImageData} (h : img.mask = .missing) (p : Vec3) :
    pointVote img p = none := by
  simp [pointVote, h]

lemma pointVote_decoded {img : ImageData} {m : ℕ → ℕ → ℕ} (h : img.mask = .decoded m)
    (p : Vec3) : pointVote img p = pointVoteDecoded img m p := by
  simp [pointVote, h]

lemma pointVoteDecoded_eq_some_iff (img : ImageData) (m : ℕ → ℕ → ℕ) (p : Vec3) (l : ℕ) :
    pointVoteDecoded img m p = some l ↔
      0 < depthOf img p ∧ inBounds img p ∧ l = maskLookup m img p ∧ 0 < l := by
  unfold pointVoteDecoded
  by_cases hd : 0 < depthOf img p
  · by_cases hb : inBounds img p
    · by_cases hl : 0 < maskLookup m img p
      · simp only [if_pos hd, if_pos hb, if_pos hl, Option.some_inj]
        constructor
        · intro h
          exact ⟨hd, hb, h.symm, h ▸ hl⟩
        · intro h
          exact h.2.2.1.symm
      · simp only [if_pos hd, if_pos hb, if_neg hl]
        constructor
        · intro h
          exact Option.noConfusion h
        · rintro ⟨-, -, h1, h2⟩
          exact absurd (h1 ▸ h2) hl
    · simp only [if_pos hd, if_neg hb]
      constructor
      · intro h
        exact Option.noConfusion h
      · rintro ⟨-, hb2, -⟩
        exact absurd hb2 hb
  · simp only [if_neg hd]
    constructor
    · intro h
      exact Option.noConfusion h
    · rintro ⟨hd2, -⟩
      exact absurd hd2 hd

lemma pointVote_eq_none_of_not_visible (img : ImageData) (p : Vec3)
    (h : ¬(0 < depthOf img p ∧ inBounds img p)) : pointVote img p = none := by
  cases hm : img.mask with
  | missing => simp [pointVote, hm]
  | undecodable => simp [pointVote, hm]
  | decoded m =>
    rw [pointVote_decoded hm]
    cases hv : pointVoteDecoded img m p with
    | none => rfl
    | some l =>
      obtain ⟨hd, hb, -⟩ := (pointVoteDecoded_eq_some_iff img m p l).1 hv
      exact absurd ⟨hd, hb⟩ h

lemma pointVote_pos {img : ImageData} {p : Vec3} {l : ℕ} (h : pointVote img p = some l) :
    0 < l := by
  cases hm : img.mask with
  | missing => rw [pointVote_missing hm] at h; exact Option.noConfusion h
  | undecodable => simp [pointVote, hm] at h
  | decoded m =>
    rw [pointVote_decoded hm] at h
    exact ((pointVoteDecoded_eq_some_iff img m p l).1 h).2.2.2

lemma voteList_pos {imgs : List ImageData} {p : Vec3} {l : ℕ} (h : l ∈ voteList imgs p) :
    0 < l := by
  obtain ⟨img, -, hvote⟩ := List.mem_filterMap.1 h
  exact pointVote_pos hvote

lemma accumImage_missing {img : ImageData} (h : img.mask = .missing)
    (pts : List Vec3) (acc : List (List ℕ)) : accumImage img pts acc = .ok acc := by
  simp [accumImage, h]

lemma accumImage_undecodable {img : ImageData} (h : img.mask = .undecodable)
    (pts : List Vec3) (acc : List (List ℕ)) : accumImage img pts acc = .error () := by
  simp [accumImage, h]

lemma accumImage_decoded {img : ImageData} {m : ℕ → ℕ → ℕ} (h : img.mask = .decoded m)
    (pts : List Vec3) (acc : List (List ℕ)) :
    accumImage img pts acc =
      .ok ((pts.zip acc).map fun pv => pv.2 ++ (pointVoteDecoded img m pv.1).toList) := by
  simp [accumImage, h]

/-- The image loop computed image-major (as the source does) agrees,
point by point, with the point-major `voteList` view, whenever no mask
decode error interrupts it. -/
lemma accumImages_eq_voteList (imgs : List ImageData) (pts : List Vec3) :
    ∀ f : Vec3 → List ℕ, (∀ i ∈ imgs, i.mask ≠ .undecodable) →
      accumImages imgs pts (pts.map f) =
        .ok (pts.map fun p => f p ++ voteList imgs p) := by
  induction imgs with
  | nil =>
    intro f h
    simp [accumImages, voteList]
  | cons img rest ih =>
    intro f h
    have hrest : ∀ i ∈ rest, i.mask ≠ .undecodable := fun i hi =>
      h i (List.mem_cons_of_mem _ hi)
    cases hm : img.mask with
    | undecodable => exact absurd hm (h img (List.mem_cons_self _ _))
    | missing =>
      have hv : ∀ q, voteList (img :: rest) q = voteList rest q := by
        intro q
        rw [voteList_cons, pointVote_missing hm]
        simp
      simp only [accumImages, accumImage_missing hm]
      rw [ih f hrest]
      simp only [hv]
    | decoded m =>
      have hv : ∀ q, voteList (img :: rest) q =
          (pointVoteDecoded img m q).toList ++ voteList rest q := by
        intro q
        rw [voteList_cons, pointVote_decoded hm]
      have hzip : pts.zip (pts.map f) = pts.map fun p => (p, f p) := by
        have := List.zip_map' id f pts
        simpa using this
      simp only [accumImages, accumImage_decoded hm]
      rw [hzip, List.map_map]
      have hcomp : ((fun pv : Vec3 × List ℕ => pv.2 ++ (pointVoteDecoded img m pv.1).toList) ∘
          fun p => (p, f p)) = fun p => f p ++ (pointVoteDecoded img m p).toList := rfl
      rw [hcomp, ih _ hrest]
      simp only [hv, List.append_assoc]

/-- A mask file that raises on decode makes the whole loop raise. -/
lemma accumImages_error (imgs : List ImageData) (pts : List Vec3) :
    ∀ acc, (∃ i ∈ imgs, i.mask = .undecodable) → accumImages imgs pts acc = .error () := by
  induction imgs with
  | nil =>
    rintro acc ⟨i, hi, -⟩
    simp at hi
  | cons img rest ih =>
    rintro acc ⟨i, hi, hmask⟩
    rcases List.mem_cons.1 hi with h1 | h1
    · subst h1
      simp [accumImages, accumImage_undecodable hmask]
    · cases hm : img.mask with
      | missing =>
        simp only [accumImages, accumImage_missing hm]
        exact ih _ ⟨i, h1, hmask⟩
      | undecodable =>
        simp [accumImages, accumImage_undecodable hm]
      | decoded m =>
        simp only [accumImages, accumImage_decoded hm]
        exact ih _ ⟨i, h1, hmask⟩

/-! The claims. -/

/-- C1, counterexample: in the fusion run over four images whose votes for
`p0` are `[5, 5, 3, 3]`, labels `3` and `5` are tied for the highest count,
yet the resolver returns `5` (the first-encountered label), not the
lowest-valued label `3`. -/
theorem c1_counterexample :
    voteList imgs5533 p0 = [5, 5, 3, 3] ∧
    (voteList imgs5533 p0).count 3 = (voteList imgs5533 p0).count 5 ∧
    resolveLabel (voteList imgs5533 p0) ≠ 3 := by
  refine ⟨by decide, by decide, by decide⟩

/-- C1, amended: on a tie for the highest occurrence count the resolver
returns the tied label whose first occurrence in the VoteList is earliest
(the insertion order of `Counter`), not the lowest-valued one; in
particular resolving `[3, 3, 5, 5]` still yields `3`. -/
theorem c1_tie_break :
    (∀ (votes : List ℕ) (l : ℕ), most_common1 votes = some l →
      l ∈ votes ∧ (∀ m ∈ votes, votes.count m ≤ votes.count l) ∧
      ∀ m ∈ votes, votes.count m = votes.count l → votes.indexOf l ≤ votes.indexOf m) ∧
    resolveLabel [3, 3, 5, 5] = 3 := by
  constructor
  · intro votes l h
    obtain ⟨h1, h2⟩ := most_common1_spec h
    exact ⟨h1, h2, fun m hm hc => most_common1_earliest h hm hc⟩
  · decide

/-- C1, witness for the amended theorem at the vote list `[5, 5, 3, 3]`. -/
theorem c1_tie_break_witness :
    most_common1 [5, 5, 3, 3] = some 5 ∧ (3 : ℕ) ∈ ([5, 5, 3, 3] : List ℕ) ∧
    ([5, 5, 3, 3] : List ℕ).count 3 = ([5, 5, 3, 3] : List ℕ).count 5 ∧
    ([5, 5, 3, 3] : List ℕ).indexOf 5 ≤ ([5, 5, 3, 3] : List ℕ).indexOf 3 := by
  refine ⟨by decide, by decide, by decide, ?_⟩
  exact (c1_tie_break.1 [5, 5, 3, 3] 5 (by decide)).2.2 3 (by decide) (by decide)

/-- C2, counterexample: reversing the image processing order changes the
consensus label of `p0` from `5` to `3` (the votes are tied, and the
resolver's tie-break depends on encounter order). -/
theorem c2_counterexample :
    Option.map FusionOutput.labels (fuse_semantics pal0 (.loaded imgs5533 [p0]) 0) ≠
      Option.map FusionOutput.labels
        (fuse_semantics pal0 (.loaded imgs5533.reverse [p0]) 0) := by
  decide

/-- C2, amended: permuting the image order permutes each point's VoteList
(so all vote counts are invariant), and the ConsensusLabel itself is
order-invariant whenever the point has a strict majority label (no tie for
the highest count). -/
theorem c2_order_invariance (imgs imgs' : List ImageData) (h : imgs.Perm imgs')
    (p : Vec3) :
    (voteList imgs p).Perm (voteList imgs' p) ∧
    ∀ l ∈ voteList imgs p,
      (∀ m ∈ voteList imgs p, m ≠ l →
        (voteList imgs p).count m < (voteList imgs p).count l) →
      resolveLabel (voteList imgs p) = l ∧ resolveLabel (voteList imgs' p) = l := by
  have hperm : (voteList imgs p).Perm (voteList imgs' p) := h.filterMap _
  refine ⟨hperm, fun l hl hmax => ?_⟩
  have h1 : resolveLabel (voteList imgs p) = l := resolveLabel_eq_of_strict_max hl hmax
  have hl' : l ∈ voteList imgs' p := hperm.mem_iff.1 hl
  have hmax' : ∀ m ∈ voteList imgs' p, m ≠ l →
      (voteList imgs' p).count m < (voteList imgs' p).count l := by
    intro m hm hne
    rw [← hperm.count_eq m, ← hperm.count_eq l]
    exact hmax m (hperm.mem_iff.2 hm) hne
  exact ⟨h1, resolveLabel_eq_of_strict_max hl' hmax'⟩

/-- C2, witness: three images with votes `[5, 3, 5]` for `p0`; label `5`
has a strict majority, so both processing orders resolve to `5`. -/
theorem c2_order_invariance_witness :
    (voteList c2imgs p0).Perm (voteList c2imgs.reverse p0) ∧
    resolveLabel (voteList c2imgs p0) = 5 ∧
    resolveLabel (voteList c2imgs.reverse p0) = 5 := by
  have h := c2_order_invariance c2imgs c2imgs.reverse (List.reverse_perm c2imgs).symm p0
  have h2 := h.2 5 (by decide) (by decide)
  exact ⟨h.1, h2.1, h2.2⟩

/-- C3, counterexample: a reconstruction with zero images but a nonzero
point set is NOT rejected — the run proceeds and writes an output (no
zero-image check exists in the code). -/
theorem c3_counterexample :
    fuse_semantics pal0 (.loaded [] [p0]) 0 ≠ none := by
  decide

/-- C3, amended: a missing or empty model directory, a load failure, and a
reconstruction with zero 3D points each abort the run with no output, but a
reconstruction with zero images and nonzero points produces an output in
which every point has ConsensusLabel 0. -/
theorem c3_fatal_input (palette : ℕ → ℕ → ℚ × ℚ × ℚ) (d : ℕ) :
    fuse_semantics palette .missingOrEmpty d = none ∧
    fuse_semantics palette .loadFailure d = none ∧
    (∀ imgs, fuse_semantics palette (.loaded imgs []) d = none) ∧
    ∀ pts, pts ≠ [] → ∃ out, fuse_semantics palette (.loaded [] pts) d = some out ∧
      out.labels = pts.map fun _ => 0 := by
  refine ⟨rfl, rfl, fun imgs => by simp [fuse_semantics], fun pts hpts => ?_⟩
  cases pts with
  | nil => exact absurd rfl hpts
  | cons q qs =>
    have hlab : (((q :: qs).map fun _ => ([] : List ℕ))).map resolveLabel
        = (q :: qs).map fun _ => 0 := by
      rw [List.map_map]
      rfl
    exact ⟨_, rfl, hlab⟩

/-- C3, witness for the amended theorem at a one-point, zero-image
reconstruction. -/
theorem c3_fatal_input_witness :
    ([p0] : List Vec3) ≠ [] ∧
    ∃ out, fuse_semantics pal0 (.loaded [] [p0]) 0 = some out ∧
      out.labels = [p0].map fun _ => 0 := by
  refine ⟨by simp, ?_⟩
  exact (c3_fatal_input pal0 0).2.2.2 [p0] (by simp)

/-- C4, counterexample: an image whose mask fails to decode does not merely
contribute zero votes — the exception aborts the whole run (output `none`),
whereas the same input without that image produces an output. -/
theorem c4_counterexample :
    fuse_semantics pal0 (.loaded [badImg, mkImg 7] [p0]) 0 = none ∧
    fuse_semantics pal0 (.loaded [mkImg 7] [p0]) 0 ≠ none := by
  exact ⟨by decide, by decide⟩

/-- C4, amended: an image whose mask file is MISSING contributes zero votes
for all points and leaves every other image's contribution unchanged; but
an image whose mask fails to DECODE raises an unhandled exception that
aborts the entire run with no output. -/
theorem c4_mask_errors :
    (∀ (front back : List ImageData) (img : ImageData) (p : Vec3),
      img.mask = .missing →
      voteList (front ++ img :: back) p = voteList (front ++ back) p) ∧
    ∀ (palette : ℕ → ℕ → ℚ × ℚ × ℚ) (d : ℕ) (imgs : List ImageData) (pts : List Vec3),
      (∃ i ∈ imgs, i.mask = .undecodable) →
      fuse_semantics palette (.loaded imgs pts) d = none := by
  constructor
  · intro front back img p hm
    simp only [voteList, List.filterMap_append, List.filterMap_cons, pointVote_missing hm]
  · intro palette d imgs pts hex
    simp only [fuse_semantics]
    split
    · rfl
    · rw [accumImages_error imgs pts _ hex]

/-- C4, witness for the amended theorem: a missing-mask image is skipped
without altering the good image's vote, and an undecodable-mask image
aborts the run. -/
theorem c4_mask_errors_witness :
    voteList [missingImg, mkImg 7] p0 = voteList [mkImg 7] p0 ∧
    fuse_semantics pal0 (.loaded [badImg] [p0]) 0 = none := by
  constructor
  · exact c4_mask_errors.1 [] [mkImg 7] missingImg p0 rfl
  · exact c4_mask_errors.2 pal0 0 [badImg] [p0] ⟨badImg, List.mem_singleton.2 rfl, rfl⟩

/-- C5: an empty VoteList resolves to ConsensusLabel 0; a nonempty one
resolves to a label of maximal occurrence count belonging to the list; and
a point that is never simultaneously in front of a camera and inside its
bounds has an empty VoteList and ends with ConsensusLabel 0. -/
theorem c5_empty_and_majority :
    resolveLabel [] = 0 ∧
    (∀ votes : List ℕ, votes ≠ [] →
      resolveLabel votes ∈ votes ∧
      ∀ m ∈ votes, votes.count m ≤ votes.count (resolveLabel votes)) ∧
    ∀ (imgs : List ImageData) (p : Vec3),
      (∀ img ∈ imgs, ¬(0 < depthOf img p ∧ inBounds img p)) →
      voteList imgs p = [] ∧ resolveLabel (voteList imgs p) = 0 := by
  refine ⟨rfl, fun votes h => resolveLabel_spec h, fun imgs p h => ?_⟩
  have hnil : voteList imgs p = [] := by
    rw [voteList, List.filterMap_eq_nil_iff]
    exact fun img hi => pointVote_eq_none_of_not_visible img p (h img hi)
  exact ⟨hnil, by rw [hnil, resolveLabel_nil]⟩

/-- C5, witness: the majority clause at `[3, 3, 5]` and the never-observed
clause at the behind-the-camera point. -/
theorem c5_empty_and_majority_witness :
    ([3, 3, 5] : List ℕ) ≠ [] ∧ resolveLabel [3, 3, 5] ∈ ([3, 3, 5] : List ℕ) ∧
    voteList [mkImg 5] pBehind = [] ∧ resolveLabel (voteList [mkImg 5] pBehind) = 0 := by
  have h1 := c5_empty_and_majority.2.1 [3, 3, 5] (by decide)
  have h2 := c5_empty_and_majority.2.2 [mkImg 5] pBehind (by decide)
  exact ⟨by decide, h1.1, h2.1, h2.2⟩

/-- C6: a point whose camera-space depth (third homogeneous coordinate `w`)
is ≤ 0 for a camera receives no vote from that camera's image, whatever its
mask state and wherever its 2D projection lands. -/
theorem c6_depth_test (img : ImageData) (p : Vec3) (h : depthOf img p ≤ 0) :
    pointVote img p = none := by
  refine pointVote_eq_none_of_not_visible img p ?_
  rintro ⟨hd, -⟩
  exact absurd h (not_le.2 hd)

/-- C6, witness: the point `(0, 0, -1)` has depth `-1 ≤ 0` yet its
de-homogenized projection `(0, 0)` lies inside the image bounds; it still
receives no vote. -/
theorem c6_depth_test_witness :
    depthOf (mkImg 5) pBehind ≤ 0 ∧ inBounds (mkImg 5) pBehind ∧
    pointVote (mkImg 5) pBehind = none := by
  refine ⟨by decide, by decide, c6_depth_test (mkImg 5) pBehind (by decide)⟩

/-- C7: for an image with a decoded mask, a vote `l` is recorded for point
`p` exactly when the depth is positive, the REAL-VALUED pixel coordinate
satisfies `0 ≤ px < width` and `0 ≤ py < height`, and the mask value at the
TRUNCATED pixel index (truncation happens only at this final lookup) is the
positive label `l`. -/
theorem c7_bounds_test (img : ImageData) (m : ℕ → ℕ → ℕ) (p : Vec3) (l : ℕ)
    (hm : img.mask = .decoded m) :
    pointVote img p = some l ↔
      0 < depthOf img p ∧
      (0 ≤ (pixelOf img p).1 ∧ (pixelOf img p).1 < (img.width : ℚ) ∧
       0 ≤ (pixelOf img p).2 ∧ (pixelOf img p).2 < (img.height : ℚ)) ∧
      l = m (truncToInt (pixelOf img p).2).toNat (truncToInt (pixelOf img p).1).toNat ∧
      0 < l := by
  rw [pointVote_decoded hm]
  exact pointVoteDecoded_eq_some_iff img m p l

/-- C7, witness: the characterization instantiated at the image with
constant mask 7 and the point projecting to pixel `(0, 0)` at depth 1. -/
theorem c7_bounds_test_witness :
    (mkImg 7).mask = .decoded (constMask 7) ∧
    (pointVote (mkImg 7) p0 = some 7 ↔
      0 < depthOf (mkImg 7) p0 ∧
      (0 ≤ (pixelOf (mkImg 7) p0).1 ∧ (pixelOf (mkImg 7) p0).1 < ((mkImg 7).width : ℚ) ∧
       0 ≤ (pixelOf (mkImg 7) p0).2 ∧ (pixelOf (mkImg 7) p0).2 < ((mkImg 7).height : ℚ)) ∧
      7 = constMask 7 (truncToInt (pixelOf (mkImg 7) p0).2).toNat
            (truncToInt (pixelOf (mkImg 7) p0).1).toNat ∧
      0 < 7) :=
  ⟨rfl, c7_bounds_test (mkImg 7) (constMask 7) p0 7 rfl⟩

/-- C8: every label in every VoteList is strictly positive, and a mask
value of 0 at the projected pixel yields no vote even when the depth and
bounds tests passed. -/
theorem c8_no_background_votes :
    (∀ (imgs : List ImageData) (p : Vec3) (l : ℕ), l ∈ voteList imgs p → 0 < l) ∧
    ∀ (img : ImageData) (m : ℕ → ℕ → ℕ) (p : Vec3), img.mask = .decoded m →
      maskLookup m img p = 0 → pointVote img p = none := by
  constructor
  · exact fun imgs p l h => voteList_pos h
  · intro img m p hm h0
    rw [pointVote_decoded hm]
    cases hv : pointVoteDecoded img m p with
    | none => rfl
    | some l =>
      obtain ⟨-, -, hl, hpos⟩ := (pointVoteDecoded_eq_some_iff img m p l).1 hv
      rw [hl, h0] at hpos
      exact absurd hpos (lt_irrefl 0)

/-- C8, witness: a recorded vote `5` is positive, and the all-zero mask
records no vote at the in-bounds, in-front point `p0`. -/
theorem c8_no_background_votes_witness :
    (5 : ℕ) ∈ voteList [mkImg 5] p0 ∧ 0 < (5 : ℕ) ∧
    (mkImg 0).mask = .decoded (constMask 0) ∧
    maskLookup (constMask 0) (mkImg 0) p0 = 0 ∧
    pointVote (mkImg 0) p0 = none := by
  refine ⟨by decide, ?_, rfl, rfl, ?_⟩
  · exact c8_no_background_votes.1 [mkImg 5] p0 5 (by decide)
  · exact c8_no_background_votes.2 (mkImg 0) (constMask 0) p0 rfl rfl

/-- C9: each image contributes at most one vote per point, so a point's
VoteList is never longer than the image list. -/
theorem c9_vote_bound (imgs : List ImageData) (p : Vec3) :
    (voteList imgs p).length ≤ imgs.length :=
  List.length_filterMap_le _ _

/-- C10: `fuse_semantics` never reads its `dense_ply_path` argument, so two
runs differing only in that argument produce identical output. -/
theorem c10_dense_ply_path_ignored (palette : ℕ → ℕ → ℚ × ℚ × ℚ)
    (colmap_model : ColmapModel) (d1 d2 : ℕ) :
    fuse_semantics palette colmap_model d1 = fuse_semantics palette colmap_model d2 := rfl

end SemanticFusion
